import Mathlib

/-!
Verification of the matching-and-mutation engine of the Visual Photo Renamer
(`FileRenamerCore` in `renamerV4.py` / `renamerV2_gui.py`).

The engine is embedded shallowly:
* a filesystem path is a pair (directory, file name); `pathStem`/`pathSuffix`
  reimplement `pathlib.PurePath.stem` / `.suffix` on the file name;
* the filesystem is a map from paths to optional file identities (`FS`);
  `fsRename` is the effect of `Path.rename`, and `tryRename` adds the two
  failure modes (environment failure such as permissions, via an oracle, and
  a missing source file);
* the perceptual-hash oracle (`calculate_image_hash`) is an arbitrary
  function `FPath → Option Hash`: `none` models an absorbed decode failure;
* `scan_files`, `find_pairs`, `generate_rename_plan`, `execute_rename` and
  the restore loop of `FileRenamerGUI.restore_backup` are translated
  function by function from the Python source.
-/

/-- A filesystem path: the containing directory (as a normalized string) and
the final component (file name).  Equality of `FPath` models `pathlib.Path`
equality on normalized paths. -/
structure FPath where
  dir : String
  name : String
deriving DecidableEq, Repr

/-- Index of the last occurrence of `'.'` in a character list
(`str.rfind('.')`, but `none` instead of `-1`). -/
def lastDotAux : List Char → Option Nat
  | [] => none
  | c :: cs =>
    match lastDotAux cs with
    | some j => some (j + 1)
    | none => if c = '.' then some 0 else none

/-- `pathlib.PurePath.suffix` of a file name: the part from the last dot on,
provided that dot is neither the first nor the last character. -/
def pathSuffix (s : String) : String :=
  let l := s.toList
  match lastDotAux l with
  | some i => if 0 < i ∧ i < l.length - 1 then ⟨l.drop i⟩ else ""
  | none => ""

/-- `pathlib.PurePath.stem` of a file name: the part before the last dot,
provided that dot is neither the first nor the last character. -/
def pathStem (s : String) : String :=
  let l := s.toList
  match lastDotAux l with
  | some i => if 0 < i ∧ i < l.length - 1 then ⟨l.take i⟩ else s
  | none => s

/-- `RAW_EXTENSIONS` from the source configuration. -/
def RAW_EXTENSIONS : List String :=
  [".cr2", ".nef", ".arw", ".dng", ".raf", ".orf", ".rw2", ".pef", ".srw"]

/-- `JPG_EXTENSIONS` from the source configuration. -/
def JPG_EXTENSIONS : List String :=
  [".jpg", ".jpeg"]

/-- One directory entry as seen by `Path.iterdir`: its path and whether it is
a regular file (`Path.is_file`). -/
structure DirEntry where
  path : FPath
  isFile : Bool
deriving DecidableEq, Repr

/-- The state of one of the two supplied paths: missing, an existing
non-directory, or a directory with a fixed listing order. -/
inductive FsNode where
  | missing
  | plainFile
  | dir (entries : List DirEntry)
deriving DecidableEq, Repr

/-- `Path.exists()`. -/
def FsNode.exists? : FsNode → Bool
  | .missing => false
  | _ => true

/-- `Path.is_dir()`. -/
def FsNode.isDir : FsNode → Bool
  | .dir _ => true
  | _ => false

/-- The errors `scan_files` can raise: the explicit
`FileNotFoundError(...)` raises, and the `NotADirectoryError` that
`Path.iterdir()` raises on an existing non-directory. -/
inductive ScanErr where
  | fileNotFound (msg : String)
  | notADirectory
deriving DecidableEq, Repr

/-- `Path.iterdir()`: the listing of a directory, an error otherwise. -/
def iterdirE : FsNode → Except ScanErr (List DirEntry)
  | .dir es => .ok es
  | .plainFile => .error .notADirectory
  | .missing => .error (.fileNotFound "iterdir on missing path")

/-- One scanning loop of `scan_files`: keep regular files whose lower-cased
suffix is in the extension set, in listing order. -/
def classifyEntries (exts : List String) (entries : List DirEntry) : List FPath :=
  (entries.filter (fun e => e.isFile && exts.contains (pathSuffix e.path.name).toLower)).map
    (fun e => e.path)

/-- The mutable state of `FileRenamerCore` that the engine methods touch. -/
structure Core where
  raw_files : List FPath
  jpg_files : List FPath
  pairs : List (FPath × FPath × Nat)
deriving DecidableEq, Repr

/-- `FileRenamerCore.scan_files`: clear both file lists, check that both
paths exist (raising `FileNotFoundError` otherwise), then enumerate and
bucket each directory, returning the two counts.  `iterdir` on an existing
non-directory raises `NotADirectoryError` at loop entry. -/
def scan_files (c : Core) (rawNode jpgNode : FsNode) : Core × Except ScanErr (Nat × Nat) :=
  let c := { c with raw_files := [], jpg_files := [] }
  if rawNode.exists? then
    if jpgNode.exists? then
      match iterdirE rawNode with
      | .error e => (c, .error e)
      | .ok rawEntries =>
        let c := { c with raw_files := classifyEntries RAW_EXTENSIONS rawEntries }
        match iterdirE jpgNode with
        | .error e => (c, .error e)
        | .ok jpgEntries =>
          let c := { c with jpg_files := classifyEntries JPG_EXTENSIONS jpgEntries }
          (c, .ok (c.raw_files.length, c.jpg_files.length))
    else (c, .error (.fileNotFound "JPG folder does not exist"))
  else (c, .error (.fileNotFound "RAW folder does not exist"))

/-- A perceptual fingerprint: the flattened boolean hash array produced by
`imagehash.dhash`. -/
abbrev Hash := List Bool

/-- `ImageHash.__sub__`: the Hamming distance between two hash arrays. -/
def hdist (a b : Hash) : Nat :=
  (a.zip b).countP (fun p => !(p.1 == p.2))

/-- The `jpg_hashes` dictionary of `find_pairs`, in insertion order: each JPG
file paired with its fingerprint, files whose hash failed dropped. -/
def jpg_hashes (hashOf : FPath → Option Hash) (jpgs : List FPath) : List (FPath × Hash) :=
  jpgs.filterMap (fun j => (hashOf j).map (fun h => (j, h)))

/-- The inner candidate loop of `find_pairs`: starting from the current
`(best_match, best_similarity)` accumulator (`none` models
`best_match = None, best_similarity = inf`), fold over the JPG hashes,
replacing the best candidate exactly when the distance is strictly smaller
than the best so far and at most the threshold. -/
def findBestAux (T : Nat) (rh : Hash) : Option (FPath × Nat) → List (FPath × Hash) → Option (FPath × Nat)
  | best, [] => best
  | best, jh :: rest =>
    let s := hdist rh jh.2
    match best with
    | none =>
      if s ≤ T then findBestAux T rh (some (jh.1, s)) rest
      else findBestAux T rh none rest
    | some (b, bs) =>
      if s < bs ∧ s ≤ T then findBestAux T rh (some (jh.1, s)) rest
      else findBestAux T rh (some (b, bs)) rest

/-- `FileRenamerCore.find_pairs`: hash every JPG once, then for every RAW
file whose hash computed, append the best candidate (if any) to the pair
list.  The progress callback is a pure side channel and is not modeled. -/
def find_pairs (hashOf : FPath → Option Hash) (T : Nat) (raws jpgs : List FPath) :
    List (FPath × FPath × Nat) :=
  let jhs := jpg_hashes hashOf jpgs
  raws.filterMap (fun r =>
    match hashOf r with
    | none => none
    | some rh =>
      match findBestAux T rh none jhs with
      | none => none
      | some (b, bs) => some (r, b, bs))

/-- The target path the planner computes for a matched pair:
`raw_file.parent / (jpg_file.stem + raw_file.suffix)`. -/
def plannedTarget (raw jpg : FPath) : FPath :=
  ⟨raw.dir, pathStem jpg.name ++ pathSuffix raw.name⟩

/-- The filesystem: each path maps to the identity of the file stored there,
or `none` when nothing exists at that path. -/
abbrev FS := FPath → Option Nat

/-- `FileRenamerCore.generate_rename_plan`: for each matched pair compute the
target, skip it when the target exists and differs from the source, and skip
it when source and target coincide. -/
def generate_rename_plan (fs : FS) (pairs : List (FPath × FPath × Nat)) :
    List (FPath × FPath) :=
  pairs.filterMap (fun pr =>
    let raw := pr.1
    let newPath := plannedTarget pr.1 pr.2.1
    if (fs newPath).isSome ∧ newPath ≠ raw then none
    else if raw ≠ newPath then some (raw, newPath)
    else none)

/-- The effect of a successful `Path.rename(old → new)` on the filesystem:
the file at `old` now sits at `new` (silently replacing any file there), and
`old` is vacated. -/
def fsRename (old new : FPath) (fs : FS) : FS :=
  fun p => if p = new then fs old else if p = old then none else fs p

/-- One `Path.rename` attempt.  `envFail` is the environment oracle: `some
msg` models an exception outside the model (permissions, cross-device);
independently, renaming a missing source raises. -/
def tryRename (envFail : Option String) (fs : FS) (old new : FPath) : Except String FS :=
  match envFail with
  | some m => .error m
  | none =>
    if (fs old).isSome then .ok (fsRename old new fs)
    else .error "No such file or directory"

/-- Status of one executed rename operation. -/
inductive RStatus where
  | success
  | error
deriving DecidableEq, Repr

/-- One entry of the backup log's `operations` list. -/
structure RenameRecord where
  old_name : String
  new_name : String
  old_path : FPath
  new_path : FPath
  status : RStatus
  errMsg : Option String
deriving DecidableEq, Repr

/-- The rename loop of `FileRenamerCore.execute_rename`, carrying the
operation index for the environment oracle: each operation is attempted
independently, appending a `success` record (and counting it) or an `error`
record with the exception message. -/
def execute_rename_aux (envFail : Nat → Option String) :
    Nat → FS → List (FPath × FPath) → FS × List RenameRecord × Nat
  | _, fs, [] => (fs, [], 0)
  | i, fs, (old, new) :: rest =>
    match tryRename (envFail i) fs old new with
    | .ok fs' =>
      let r := execute_rename_aux envFail (i + 1) fs' rest
      (r.1, { old_name := old.name, new_name := new.name, old_path := old,
              new_path := new, status := .success, errMsg := none } :: r.2.1,
       r.2.2 + 1)
    | .error m =>
      let r := execute_rename_aux envFail (i + 1) fs rest
      (r.1, { old_name := old.name, new_name := new.name, old_path := old,
              new_path := new, status := .error, errMsg := some m } :: r.2.1,
       r.2.2)

/-- `FileRenamerCore.execute_rename`: run the batch and return the final
filesystem, the ordered `operations` list of the backup log (always
produced, also under partial failure), and `successful_renames`. -/
def execute_rename (envFail : Nat → Option String) (fs : FS)
    (plan : List (FPath × FPath)) : FS × List RenameRecord × Nat :=
  execute_rename_aux envFail 0 fs plan

/-- The restore loop of `FileRenamerGUI.restore_backup`, carrying the record
index for the environment oracle: for every record with status `success`
whose `new_path` still exists, rename it back to `old_path`, counting
successes and collecting per-file error messages; all other records are
skipped. -/
def restore_backup_aux (rf : Nat → Option String) :
    Nat → FS → List RenameRecord → FS × Nat × List String
  | _, fs, [] => (fs, 0, [])
  | i, fs, rcd :: rest =>
    if rcd.status = .success then
      if (fs rcd.new_path).isSome then
        match tryRename (rf i) fs rcd.new_path rcd.old_path with
        | .ok fs' =>
          let r := restore_backup_aux rf (i + 1) fs' rest
          (r.1, r.2.1 + 1, r.2.2)
        | .error m =>
          let r := restore_backup_aux rf (i + 1) fs rest
          (r.1, r.2.1, (rcd.new_path.name ++ ": " ++ m) :: r.2.2)
      else restore_backup_aux rf (i + 1) fs rest
    else restore_backup_aux rf (i + 1) fs rest

/-- `FileRenamerGUI.restore_backup` applied to an already-parsed backup log:
returns the final filesystem, the restored count and the error list. -/
def restore_backup (rf : Nat → Option String) (fs : FS) (ops : List RenameRecord) :
    FS × Nat × List String :=
  restore_backup_aux rf 0 fs ops

/-- Minimum of a list of distances (`none` on the empty list); the
mathematical vocabulary used to state what the candidate loop selects. -/
def minD : List Nat → Option Nat
  | [] => none
  | d :: ds =>
    some (match minD ds with
      | none => d
      | some m => min d m)

/-- The first JPG, in iteration order, whose fingerprint is at distance
exactly `m` from `rh`. -/
def firstAt (rh : Hash) (m : Nat) : List (FPath × Hash) → Option FPath
  | [] => none
  | jh :: rest => if hdist rh jh.2 = m then some jh.1 else firstAt rh m rest

/-- Specification form of the candidate loop started from an empty
accumulator: the first JPG (in iteration order) achieving the overall
minimum distance, provided that minimum is within the threshold. -/
def bestSpec (T : Nat) (rh : Hash) (jhs : List (FPath × Hash)) : Option (FPath × Nat) :=
  match minD (jhs.map (fun jh => hdist rh jh.2)) with
  | none => none
  | some m =>
    if m ≤ T then (firstAt rh m jhs).map (fun j => (j, m))
    else none

/-- Specification form of the candidate loop started from an accumulator
`(b, bs)` with `bs ≤ T`: the accumulator survives unless some candidate is
strictly closer, in which case the first achiever of the minimum wins. -/
def bestSpecAcc (rh : Hash) (b : FPath) (bs : Nat) (jhs : List (FPath × Hash)) :
    Option (FPath × Nat) :=
  match minD (jhs.map (fun jh => hdist rh jh.2)) with
  | none => some (b, bs)
  | some m =>
    if m < bs then (firstAt rh m jhs).map (fun j => (j, m))
    else some (b, bs)

lemma findBestAux_cons_none (T : Nat) (rh : Hash) (a : FPath × Hash)
    (rest : List (FPath × Hash)) :
    findBestAux T rh none (a :: rest) =
      if hdist rh a.2 ≤ T then findBestAux T rh (some (a.1, hdist rh a.2)) rest
      else findBestAux T rh none rest := rfl

lemma findBestAux_cons_some (T : Nat) (rh : Hash) (b : FPath) (bs : Nat)
    (a : FPath × Hash) (rest : List (FPath × Hash)) :
    findBestAux T rh (some (b, bs)) (a :: rest) =
      if hdist rh a.2 < bs ∧ hdist rh a.2 ≤ T then
        findBestAux T rh (some (a.1, hdist rh a.2)) rest
      else findBestAux T rh (some (b, bs)) rest := rfl

lemma minD_cons (x : Nat) (xs : List Nat) :
    minD (x :: xs) =
      some (match minD xs with | none => x | some m => min x m) := rfl

lemma findBestAux_acc_eq (T : Nat) (rh : Hash) :
    ∀ (jhs : List (FPath × Hash)) (b : FPath) (bs : Nat), bs ≤ T →
      findBestAux T rh (some (b, bs)) jhs = bestSpecAcc rh b bs jhs := by
  intro jhs
  induction jhs with
  | nil => intro b bs _; rfl
  | cons a rest ih =>
    intro b bs hbs
    rw [findBestAux_cons_some]
    by_cases hc : hdist rh a.2 < bs ∧ hdist rh a.2 ≤ T
    · rw [if_pos hc, ih a.1 (hdist rh a.2) hc.2]
      simp only [bestSpecAcc, List.map_cons, minD_cons]
      cases hms : minD (List.map (fun jh => hdist rh jh.2) rest) with
      | none =>
        simp [hms, if_pos hc.1, firstAt]
      | some m =>
        simp only [hms]
        by_cases hm : m < hdist rh a.2
        · have h1 : min (hdist rh a.2) m = m := by omega
          have h2 : ¬ hdist rh a.2 = m := by omega
          simp only [if_pos hm, h1, if_pos (show m < bs by omega), firstAt, if_neg h2]
        · have h1 : min (hdist rh a.2) m = hdist rh a.2 := by omega
          simp [if_neg hm, h1, if_pos hc.1, firstAt]
    · have hbs' : bs ≤ hdist rh a.2 := by
        by_contra hlt
        exact hc ⟨by omega, by omega⟩
      rw [if_neg hc, ih b bs hbs]
      simp only [bestSpecAcc, List.map_cons, minD_cons]
      cases hms : minD (List.map (fun jh => hdist rh jh.2) rest) with
      | none =>
        simp only [hms, if_neg (show ¬ hdist rh a.2 < bs by omega)]
      | some m =>
        simp only [hms]
        by_cases hm : m < bs
        · have h1 : min (hdist rh a.2) m = m := by omega
          have h2 : ¬ hdist rh a.2 = m := by omega
          simp only [if_pos hm, h1, if_pos hm, firstAt, if_neg h2]
        · have h1 : ¬ min (hdist rh a.2) m < bs := by omega
          simp only [if_neg hm, if_neg h1]

lemma findBestAux_eq_bestSpec (T : Nat) (rh : Hash) :
    ∀ jhs : List (FPath × Hash), findBestAux T rh none jhs = bestSpec T rh jhs := by
  intro jhs
  induction jhs with
  | nil => rfl
  | cons a rest ih =>
    rw [findBestAux_cons_none]
    by_cases hs : hdist rh a.2 ≤ T
    · rw [if_pos hs, findBestAux_acc_eq T rh rest a.1 (hdist rh a.2) hs]
      simp only [bestSpecAcc, bestSpec, List.map_cons, minD_cons]
      cases hms : minD (List.map (fun jh => hdist rh jh.2) rest) with
      | none =>
        simp [hms, if_pos hs, firstAt]
      | some m =>
        simp only [hms]
        by_cases hm : m < hdist rh a.2
        · have h1 : min (hdist rh a.2) m = m := by omega
          have h2 : ¬ hdist rh a.2 = m := by omega
          simp only [if_pos hm, h1, if_pos (show m ≤ T by omega), firstAt, if_neg h2]
        · have h1 : min (hdist rh a.2) m = hdist rh a.2 := by omega
          simp [if_neg hm, h1, if_pos hs, firstAt]
    · rw [if_neg hs, ih]
      simp only [bestSpec, List.map_cons, minD_cons]
      cases hms : minD (List.map (fun jh => hdist rh jh.2) rest) with
      | none =>
        simp only [hms, if_neg hs]
      | some m =>
        simp only [hms]
        by_cases hm : m ≤ T
        · have h1 : min (hdist rh a.2) m = m := by omega
          have h2 : ¬ hdist rh a.2 = m := by omega
          simp only [h1, if_pos hm, firstAt, if_neg h2]
        · have h1 : ¬ min (hdist rh a.2) m ≤ T := by omega
          simp only [if_neg h1, if_neg hm]


lemma bestSpec_some_iff (T : Nat) (rh : Hash) (jhs : List (FPath × Hash))
    (j : FPath) (d : Nat) :
    bestSpec T rh jhs = some (j, d) ↔
      minD (jhs.map (fun jh => hdist rh jh.2)) = some d ∧ d ≤ T ∧
      firstAt rh d jhs = some j := by
  unfold bestSpec
  cases hms : minD (jhs.map (fun jh => hdist rh jh.2)) with
  | none => simp
  | some m =>
    dsimp only
    by_cases hm : m ≤ T
    · rw [if_pos hm]
      constructor
      · intro hb
        cases hfa : firstAt rh m jhs with
        | none => rw [hfa] at hb; exact absurd hb (by simp)
        | some j0 =>
          rw [hfa] at hb
          simp only [Option.map_some', Option.some.injEq, Prod.mk.injEq] at hb
          obtain ⟨rfl, rfl⟩ := hb
          exact ⟨rfl, hm, hfa⟩
      · rintro ⟨hmd, hdT, hfa⟩
        obtain rfl : m = d := by injection hmd
        rw [hfa]
        rfl
    · rw [if_neg hm]
      constructor
      · intro hb; exact absurd hb (by simp)
      · rintro ⟨hmd, hdT, _⟩
        obtain rfl : m = d := by injection hmd
        exact absurd hdT hm

lemma mem_find_pairs (hashOf : FPath → Option Hash) (T : Nat) (raws jpgs : List FPath)
    (r j : FPath) (d : Nat) :
    (r, j, d) ∈ find_pairs hashOf T raws jpgs ↔
      r ∈ raws ∧ ∃ rh, hashOf r = some rh ∧
        findBestAux T rh none (jpg_hashes hashOf jpgs) = some (j, d) := by
  simp only [find_pairs, List.mem_filterMap]
  constructor
  · rintro ⟨r', hr', hf⟩
    cases hh : hashOf r' with
    | none => simp [hh] at hf
    | some rh =>
      cases hb : findBestAux T rh none (jpg_hashes hashOf jpgs) with
      | none => simp [hh, hb] at hf
      | some p =>
        obtain ⟨b, bs⟩ := p
        rw [hh] at hf
        dsimp only at hf
        rw [hb] at hf
        dsimp only at hf
        simp only [Option.some.injEq, Prod.mk.injEq] at hf
        obtain ⟨rfl, rfl, rfl⟩ := hf
        exact ⟨hr', rh, hh, hb⟩
  · rintro ⟨hr, rh, hh, hb⟩
    exact ⟨r, hr, by rw [hh]; dsimp only; rw [hb]⟩

/-- C1: for a RAW file whose fingerprint computed, `find_pairs` emits a pair
exactly when the minimum distance over the JPGs with a fingerprint is within
the threshold, and that pair carries the minimum distance together with the
first JPG (in iteration order) achieving it; a RAW whose fingerprint failed
yields no pair. -/
theorem pairing_selects_min_first (hashOf : FPath → Option Hash) (T : Nat)
    (raws jpgs : List FPath) (r j : FPath) (d : Nat) :
    (hashOf r = none → (r, j, d) ∉ find_pairs hashOf T raws jpgs) ∧
    (∀ rh, hashOf r = some rh → r ∈ raws →
      ((r, j, d) ∈ find_pairs hashOf T raws jpgs ↔
        minD ((jpg_hashes hashOf jpgs).map (fun jh => hdist rh jh.2)) = some d ∧
        d ≤ T ∧ firstAt rh d (jpg_hashes hashOf jpgs) = some j)) := by
  constructor
  · intro h0 hmem
    rw [mem_find_pairs] at hmem
    obtain ⟨_, rh, hh, _⟩ := hmem
    rw [h0] at hh
    exact Option.noConfusion hh
  · intro rh hh hr
    rw [mem_find_pairs, ← bestSpec_some_iff, ← findBestAux_eq_bestSpec]
    constructor
    · rintro ⟨_, rh', hh', hb⟩
      rw [hh] at hh'
      obtain rfl : rh = rh' := by injection hh'
      exact hb
    · intro hb
      exact ⟨hr, rh, hh, hb⟩

/-- C1 witness: a concrete run in which the second JPG ties the first at the
minimum distance and the first-encountered one is selected. -/
theorem pairing_selects_min_first_witness :
    (fun _ : FPath => some ([true, false] : Hash)) ⟨"R", "a.cr2"⟩ = some [true, false] ∧
    (⟨"R", "a.cr2"⟩ : FPath) ∈ [(⟨"R", "a.cr2"⟩ : FPath)] ∧
    ((⟨"R", "a.cr2"⟩ : FPath), (⟨"J", "x.jpg"⟩ : FPath), 0) ∈
      find_pairs (fun _ => some [true, false]) 5 [⟨"R", "a.cr2"⟩]
        [⟨"J", "x.jpg"⟩, ⟨"J", "y.jpg"⟩] :=
  ⟨rfl, by decide, ((pairing_selects_min_first (fun _ => some [true, false]) 5
      [⟨"R", "a.cr2"⟩] [⟨"J", "x.jpg"⟩, ⟨"J", "y.jpg"⟩] ⟨"R", "a.cr2"⟩ ⟨"J", "x.jpg"⟩ 0).2
      [true, false] rfl (by decide)).mpr (by decide)⟩

/-- C5: relaxing the threshold only adds matches: every pair produced at a
stricter threshold is also produced at a looser one. -/
theorem threshold_monotone (hashOf : FPath → Option Hash) (T1 T2 : Nat) (hT : T1 < T2)
    (raws jpgs : List FPath) (p : FPath × FPath × Nat)
    (hp : p ∈ find_pairs hashOf T1 raws jpgs) :
    p ∈ find_pairs hashOf T2 raws jpgs := by
  obtain ⟨r, j, d⟩ := p
  rw [mem_find_pairs] at hp ⊢
  obtain ⟨hr, rh, hh, hb⟩ := hp
  refine ⟨hr, rh, hh, ?_⟩
  rw [findBestAux_eq_bestSpec, bestSpec_some_iff] at hb ⊢
  obtain ⟨h1, h2, h3⟩ := hb
  exact ⟨h1, by omega, h3⟩

/-- C5 witness: a pair found at threshold 1 is still found at threshold 3. -/
theorem threshold_monotone_witness :
    (1 : Nat) < 3 ∧
    ((⟨"R", "a.cr2"⟩ : FPath), (⟨"J", "x.jpg"⟩ : FPath), 1) ∈
      find_pairs (fun p => if p.dir = "R" then some [true, true] else some [true, false])
        3 [⟨"R", "a.cr2"⟩] [⟨"J", "x.jpg"⟩] :=
  ⟨by omega, threshold_monotone
    (fun p => if p.dir = "R" then some [true, true] else some [true, false]) 1 3
    (by omega) [⟨"R", "a.cr2"⟩] [⟨"J", "x.jpg"⟩]
    (⟨"R", "a.cr2"⟩, ⟨"J", "x.jpg"⟩, 1) (by decide)⟩

lemma find_pairs_cons (hashOf : FPath → Option Hash) (T : Nat) (a : FPath)
    (rest jpgs : List FPath) :
    find_pairs hashOf T (a :: rest) jpgs =
      match hashOf a with
      | none => find_pairs hashOf T rest jpgs
      | some rh =>
        match findBestAux T rh none (jpg_hashes hashOf jpgs) with
        | none => find_pairs hashOf T rest jpgs
        | some p => (a, p.1, p.2) :: find_pairs hashOf T rest jpgs := by
  cases hh : hashOf a with
  | none => simp [find_pairs, List.filterMap_cons, hh]
  | some rh =>
    cases hb : findBestAux T rh none (jpg_hashes hashOf jpgs) with
    | none => simp [find_pairs, List.filterMap_cons, hh, hb]
    | some p =>
      obtain ⟨b, bs⟩ := p
      simp [find_pairs, List.filterMap_cons, hh, hb]

lemma find_pairs_countP_zero (hashOf : FPath → Option Hash) (T : Nat)
    (jpgs : List FPath) :
    ∀ (raws : List FPath) (r : FPath), r ∉ raws →
      (find_pairs hashOf T raws jpgs).countP (fun p => p.1 == r) = 0 := by
  intro raws
  induction raws with
  | nil => intro r _; rfl
  | cons a rest ih =>
    intro r hr
    have hra : ¬ (a == r) = true := by
      simp only [beq_iff_eq]
      intro h
      exact hr (h ▸ List.mem_cons_self a rest)
    have hrrest : r ∉ rest := fun h => hr (List.mem_cons_of_mem a h)
    rw [find_pairs_cons]
    cases hh : hashOf a with
    | none => exact ih r hrrest
    | some rh =>
      dsimp only
      cases hb : findBestAux T rh none (jpg_hashes hashOf jpgs) with
      | none => exact ih r hrrest
      | some p =>
        dsimp only
        rw [List.countP_cons]
        simp only [hra, if_false]
        exact ih r hrrest

/-- C9: on a duplicate-free RAW list, the pair list carries at most one
entry for any given RAW file, while a single JPG can be the best match of
two distinct RAW files at once. -/
theorem pairing_unique_per_raw :
    (∀ (hashOf : FPath → Option Hash) (T : Nat) (raws jpgs : List FPath) (r : FPath),
      raws.Nodup →
      (find_pairs hashOf T raws jpgs).countP (fun p => p.1 == r) ≤ 1) ∧
    (((⟨"R", "a.cr2"⟩ : FPath), (⟨"J", "x.jpg"⟩ : FPath), 0) ∈
       find_pairs (fun _ => some []) 5 [⟨"R", "a.cr2"⟩, ⟨"R", "b.cr2"⟩] [⟨"J", "x.jpg"⟩] ∧
     ((⟨"R", "b.cr2"⟩ : FPath), (⟨"J", "x.jpg"⟩ : FPath), 0) ∈
       find_pairs (fun _ => some []) 5 [⟨"R", "a.cr2"⟩, ⟨"R", "b.cr2"⟩] [⟨"J", "x.jpg"⟩]) := by
  refine ⟨?_, by decide, by decide⟩
  intro hashOf T raws jpgs r
  induction raws with
  | nil => intro _; simp [find_pairs]
  | cons a rest ih =>
    intro hnd
    obtain ⟨ha, hndrest⟩ := List.nodup_cons.mp hnd
    rw [find_pairs_cons]
    cases hh : hashOf a with
    | none => exact ih hndrest
    | some rh =>
      dsimp only
      cases hb : findBestAux T rh none (jpg_hashes hashOf jpgs) with
      | none => exact ih hndrest
      | some p =>
        dsimp only
        rw [List.countP_cons]
        by_cases har : a = r
        · subst har
          rw [find_pairs_countP_zero hashOf T jpgs rest a ha]
          simp
        · have : ¬ (a == r) = true := by simp [har]
          simp only [this, if_false]
          exact ih hndrest

/-- C9 witness: a concrete duplicate-free RAW list on which the count bound
is attained. -/
theorem pairing_unique_per_raw_witness :
    ([(⟨"R", "a.cr2"⟩ : FPath), ⟨"R", "b.cr2"⟩] : List FPath).Nodup ∧
    (find_pairs (fun _ => some []) 5 [⟨"R", "a.cr2"⟩, ⟨"R", "b.cr2"⟩]
        [⟨"J", "x.jpg"⟩]).countP (fun p => p.1 == ⟨"R", "a.cr2"⟩) ≤ 1 :=
  ⟨by decide, pairing_unique_per_raw.1 (fun _ => some []) 5
    [⟨"R", "a.cr2"⟩, ⟨"R", "b.cr2"⟩] [⟨"J", "x.jpg"⟩] ⟨"R", "a.cr2"⟩ (by decide)⟩

/-- C4: every operation the planner emits has the documented target shape,
is never emitted when the target exists and differs from the source, and
never has source equal to target. -/
theorem planner_collision_safe (fs : FS) (pairs : List (FPath × FPath × Nat))
    (src tgt : FPath) (hmem : (src, tgt) ∈ generate_rename_plan fs pairs) :
    (∃ jpg d, (src, jpg, d) ∈ pairs ∧ tgt = plannedTarget src jpg) ∧
    ¬((fs tgt).isSome ∧ tgt ≠ src) ∧ src ≠ tgt := by
  simp only [generate_rename_plan, List.mem_filterMap] at hmem
  obtain ⟨pr, hpr, hf⟩ := hmem
  obtain ⟨raw, jpg, d⟩ := pr
  dsimp only at hf
  by_cases h1 : (fs (plannedTarget raw jpg)).isSome ∧ plannedTarget raw jpg ≠ raw
  · rw [if_pos h1] at hf
    exact absurd hf (by simp)
  · rw [if_neg h1] at hf
    by_cases h2 : raw ≠ plannedTarget raw jpg
    · rw [if_pos h2] at hf
      simp only [Option.some.injEq, Prod.mk.injEq] at hf
      obtain ⟨rfl, rfl⟩ := hf
      exact ⟨⟨jpg, d, hpr, rfl⟩, h1, h2⟩
    · rw [if_neg h2] at hf
      exact absurd hf (by simp)

/-- C4 witness: a planned operation on an empty filesystem, with the target
built from the JPG stem and the RAW extension. -/
theorem planner_collision_safe_witness :
    ((⟨"R", "a.cr2"⟩ : FPath), (⟨"R", "x.cr2"⟩ : FPath)) ∈
      generate_rename_plan (fun _ => none) [(⟨"R", "a.cr2"⟩, ⟨"J", "x.jpg"⟩, 0)] ∧
    (⟨"R", "a.cr2"⟩ : FPath) ≠ ⟨"R", "x.cr2"⟩ :=
  ⟨by decide, (planner_collision_safe (fun _ => none)
    [(⟨"R", "a.cr2"⟩, ⟨"J", "x.jpg"⟩, 0)] ⟨"R", "a.cr2"⟩ ⟨"R", "x.cr2"⟩ (by decide)).2.2⟩

lemma generate_rename_plan_cons (fs : FS) (a : FPath × FPath × Nat)
    (rest : List (FPath × FPath × Nat)) :
    generate_rename_plan fs (a :: rest) =
      if (fs (plannedTarget a.1 a.2.1)).isSome ∧ plannedTarget a.1 a.2.1 ≠ a.1 then
        generate_rename_plan fs rest
      else if a.1 ≠ plannedTarget a.1 a.2.1 then
        (a.1, plannedTarget a.1 a.2.1) :: generate_rename_plan fs rest
      else generate_rename_plan fs rest := by
  by_cases h1 : (fs (plannedTarget a.1 a.2.1)).isSome ∧ plannedTarget a.1 a.2.1 ≠ a.1
  · simp only [generate_rename_plan, List.filterMap_cons, if_pos h1]
  · by_cases h2 : a.1 ≠ plannedTarget a.1 a.2.1
    · simp only [generate_rename_plan, List.filterMap_cons, if_neg h1, if_pos h2]
    · simp only [generate_rename_plan, List.filterMap_cons, if_neg h1, if_neg h2]

lemma generate_rename_plan_sublist (fs : FS) :
    ∀ pairs : List (FPath × FPath × Nat),
      ∃ sub : List (FPath × FPath × Nat), sub.Sublist pairs ∧
      generate_rename_plan fs pairs =
        sub.map (fun pr => (pr.1, plannedTarget pr.1 pr.2.1)) := by
  intro pairs
  induction pairs with
  | nil => exact ⟨[], List.Sublist.refl [], rfl⟩
  | cons a rest ih =>
    obtain ⟨sub, hs, he⟩ := ih
    rw [generate_rename_plan_cons]
    by_cases h1 : (fs (plannedTarget a.1 a.2.1)).isSome ∧ plannedTarget a.1 a.2.1 ≠ a.1
    · exact ⟨sub, hs.cons a, by rw [if_pos h1]; exact he⟩
    · by_cases h2 : a.1 ≠ plannedTarget a.1 a.2.1
      · exact ⟨a :: sub, hs.cons₂ a, by rw [if_neg h1, if_pos h2, List.map_cons, ← he]⟩
      · exact ⟨sub, hs.cons a, by rw [if_neg h1, if_neg h2]; exact he⟩

/-- C10: with equal directory listings, equal hash-oracle results and equal
filesystem facts, two runs produce the same pair list and the same rename
plan, and the plan is the image, under the target computation, of an
order-preserving subsequence of the pair list. -/
theorem pipeline_deterministic (hashA hashB : FPath → Option Hash) (TA TB : Nat)
    (rawsA rawsB jpgsA jpgsB : List FPath) (fsA fsB : FS)
    (hh : ∀ p, hashA p = hashB p) (hT : TA = TB) (hr : rawsA = rawsB)
    (hj : jpgsA = jpgsB) (hfs : ∀ p, fsA p = fsB p) :
    find_pairs hashA TA rawsA jpgsA = find_pairs hashB TB rawsB jpgsB ∧
    generate_rename_plan fsA (find_pairs hashA TA rawsA jpgsA) =
      generate_rename_plan fsB (find_pairs hashB TB rawsB jpgsB) ∧
    ∃ sub : List (FPath × FPath × Nat), sub.Sublist (find_pairs hashA TA rawsA jpgsA) ∧
      generate_rename_plan fsA (find_pairs hashA TA rawsA jpgsA) =
        sub.map (fun pr => (pr.1, plannedTarget pr.1 pr.2.1)) := by
  have hh' : hashA = hashB := funext hh
  have hfs' : fsA = fsB := funext hfs
  subst hh' hT hr hj hfs'
  exact ⟨rfl, rfl, generate_rename_plan_sublist fsA (find_pairs hashA TA rawsA jpgsA)⟩

/-- C10 witness: the two-run agreement at a concrete input. -/
theorem pipeline_deterministic_witness :
    find_pairs (fun _ => some []) 5 [⟨"R", "a.cr2"⟩] [⟨"J", "x.jpg"⟩] =
      find_pairs (fun _ => some []) 5 [⟨"R", "a.cr2"⟩] [⟨"J", "x.jpg"⟩] :=
  (pipeline_deterministic (fun _ => some []) (fun _ => some []) 5 5
    [⟨"R", "a.cr2"⟩] [⟨"R", "a.cr2"⟩] [⟨"J", "x.jpg"⟩] [⟨"J", "x.jpg"⟩]
    (fun _ => none) (fun _ => none) (fun _ => rfl) rfl rfl rfl (fun _ => rfl)).1

lemma execute_rename_aux_map (envFail : Nat → Option String) :
    ∀ (plan : List (FPath × FPath)) (i : Nat) (fs : FS),
      (execute_rename_aux envFail i fs plan).2.1.map
        (fun rcd => (rcd.old_path, rcd.new_path)) = plan := by
  intro plan
  induction plan with
  | nil => intro i fs; rfl
  | cons op rest ih =>
    intro i fs
    obtain ⟨old, new⟩ := op
    simp only [execute_rename_aux]
    cases ht : tryRename (envFail i) fs old new with
    | ok fs' =>
      dsimp only
      rw [List.map_cons, ih (i + 1) fs']
    | error m =>
      dsimp only
      rw [List.map_cons, ih (i + 1) fs]

lemma execute_rename_aux_fields (envFail : Nat → Option String) :
    ∀ (plan : List (FPath × FPath)) (i : Nat) (fs : FS),
      ∀ rcd ∈ (execute_rename_aux envFail i fs plan).2.1,
        rcd.old_name = rcd.old_path.name ∧ rcd.new_name = rcd.new_path.name ∧
        (rcd.status = RStatus.error ↔ rcd.errMsg.isSome) := by
  intro plan
  induction plan with
  | nil => intro i fs rcd h; cases h
  | cons op rest ih =>
    intro i fs rcd h
    obtain ⟨old, new⟩ := op
    simp only [execute_rename_aux] at h
    cases ht : tryRename (envFail i) fs old new with
    | ok fs' =>
      rw [ht] at h
      dsimp only at h
      rcases List.mem_cons.mp h with h0 | h0
      · subst h0
        refine ⟨rfl, rfl, ?_⟩
        constructor
        · intro hst; exact absurd hst (by simp)
        · intro hms; exact absurd hms (by simp)
      · exact ih (i + 1) fs' rcd h0
    | error m =>
      rw [ht] at h
      dsimp only at h
      rcases List.mem_cons.mp h with h0 | h0
      · subst h0
        exact ⟨rfl, rfl, by simp⟩
      · exact ih (i + 1) fs rcd h0

lemma execute_rename_aux_count (envFail : Nat → Option String) :
    ∀ (plan : List (FPath × FPath)) (i : Nat) (fs : FS),
      (execute_rename_aux envFail i fs plan).2.2 =
        (execute_rename_aux envFail i fs plan).2.1.countP
          (fun rcd => rcd.status == RStatus.success) := by
  intro plan
  induction plan with
  | nil => intro i fs; rfl
  | cons op rest ih =>
    intro i fs
    obtain ⟨old, new⟩ := op
    simp only [execute_rename_aux]
    cases ht : tryRename (envFail i) fs old new with
    | ok fs' =>
      dsimp only
      rw [List.countP_cons, ih (i + 1) fs']
      simp
    | error m =>
      dsimp only
      rw [List.countP_cons, ih (i + 1) fs]
      simp

/-- C3: the executor attempts every operation independently: the backup log
holds exactly one record per planned operation, in plan order and with the
planned paths; an error record always carries a message (and a success
record never does); and the returned count equals the number of `success`
records. -/
theorem executor_per_item_isolation (envFail : Nat → Option String) (fs : FS)
    (plan : List (FPath × FPath)) :
    (execute_rename envFail fs plan).2.1.map
        (fun rcd => (rcd.old_path, rcd.new_path)) = plan ∧
    (∀ rcd ∈ (execute_rename envFail fs plan).2.1,
      rcd.old_name = rcd.old_path.name ∧ rcd.new_name = rcd.new_path.name ∧
      (rcd.status = RStatus.error ↔ rcd.errMsg.isSome)) ∧
    (execute_rename envFail fs plan).2.2 =
      (execute_rename envFail fs plan).2.1.countP
        (fun rcd => rcd.status == RStatus.success) :=
  ⟨execute_rename_aux_map envFail plan 0 fs,
   execute_rename_aux_fields envFail plan 0 fs,
   execute_rename_aux_count envFail plan 0 fs⟩

/-- C3 witness: the spec's Scenario E — three operations, the second fails
with a permission error: one record per operation in order, count 2, and the
statuses read success, error, success. -/
theorem executor_per_item_isolation_witness :
    (execute_rename (fun i => if i = 1 then some "Permission denied" else none)
        (fun _ => some 0)
        [(⟨"D", "a.cr2"⟩, ⟨"D", "p.cr2"⟩), (⟨"D", "b.cr2"⟩, ⟨"D", "q.cr2"⟩),
         (⟨"D", "c.cr2"⟩, ⟨"D", "r.cr2"⟩)]).2.1.map
        (fun rcd => (rcd.old_path, rcd.new_path)) =
      [(⟨"D", "a.cr2"⟩, ⟨"D", "p.cr2"⟩), (⟨"D", "b.cr2"⟩, ⟨"D", "q.cr2"⟩),
       (⟨"D", "c.cr2"⟩, ⟨"D", "r.cr2"⟩)] ∧
    (execute_rename (fun i => if i = 1 then some "Permission denied" else none)
        (fun _ => some 0)
        [(⟨"D", "a.cr2"⟩, ⟨"D", "p.cr2"⟩), (⟨"D", "b.cr2"⟩, ⟨"D", "q.cr2"⟩),
         (⟨"D", "c.cr2"⟩, ⟨"D", "r.cr2"⟩)]).2.2 = 2 ∧
    (execute_rename (fun i => if i = 1 then some "Permission denied" else none)
        (fun _ => some 0)
        [(⟨"D", "a.cr2"⟩, ⟨"D", "p.cr2"⟩), (⟨"D", "b.cr2"⟩, ⟨"D", "q.cr2"⟩),
         (⟨"D", "c.cr2"⟩, ⟨"D", "r.cr2"⟩)]).2.1.map RenameRecord.status =
      [RStatus.success, RStatus.error, RStatus.success] :=
  ⟨(executor_per_item_isolation (fun i => if i = 1 then some "Permission denied" else none)
      (fun _ => some 0)
      [(⟨"D", "a.cr2"⟩, ⟨"D", "p.cr2"⟩), (⟨"D", "b.cr2"⟩, ⟨"D", "q.cr2"⟩),
       (⟨"D", "c.cr2"⟩, ⟨"D", "r.cr2"⟩)]).1,
   by decide, by decide⟩

/-- C7: the classifier succeeds, returning the two bucket counts, exactly
when both supplied paths are directories; a missing path or an existing
non-directory makes it fail. -/
theorem classifier_dir_check (c : Core) (rawN jpgN : FsNode) :
    (∀ es1, rawN = FsNode.dir es1 → ∀ es2, jpgN = FsNode.dir es2 →
      (scan_files c rawN jpgN).2 =
        Except.ok ((classifyEntries RAW_EXTENSIONS es1).length,
          (classifyEntries JPG_EXTENSIONS es2).length)) ∧
    (¬(rawN.isDir = true ∧ jpgN.isDir = true) →
      ∃ e, (scan_files c rawN jpgN).2 = Except.error e) := by
  constructor
  · rintro es1 rfl es2 rfl
    rfl
  · intro h
    cases rawN with
    | missing =>
      exact ⟨ScanErr.fileNotFound "RAW folder does not exist", rfl⟩
    | plainFile =>
      cases jpgN with
      | missing => exact ⟨ScanErr.fileNotFound "JPG folder does not exist", rfl⟩
      | plainFile => exact ⟨ScanErr.notADirectory, rfl⟩
      | dir es2 => exact ⟨ScanErr.notADirectory, rfl⟩
    | dir es1 =>
      cases jpgN with
      | missing => exact ⟨ScanErr.fileNotFound "JPG folder does not exist", rfl⟩
      | plainFile => exact ⟨ScanErr.notADirectory, rfl⟩
      | dir es2 => exact absurd ⟨rfl, rfl⟩ h

/-- C7 witness: a concrete scan of two directories returns the bucket
counts. -/
theorem classifier_dir_check_witness :
    (scan_files ⟨[], [], []⟩ (FsNode.dir [⟨⟨"R", "a.cr2"⟩, true⟩]) (FsNode.dir [])).2 =
      Except.ok ((classifyEntries RAW_EXTENSIONS [⟨⟨"R", "a.cr2"⟩, true⟩]).length,
        (classifyEntries JPG_EXTENSIONS []).length) :=
  (classifier_dir_check ⟨[], [], []⟩ (FsNode.dir [⟨⟨"R", "a.cr2"⟩, true⟩])
    (FsNode.dir [])).1 [⟨⟨"R", "a.cr2"⟩, true⟩] rfl [] rfl

/-- C8 counterexample: with a missing RAW directory the scan fails, but the
previously scanned RAW file list has been cleared, so the engine state is
not unchanged on error as the claim asserts. -/
theorem classifier_mutation_cex :
    (scan_files ⟨[⟨"R", "old.cr2"⟩], [⟨"J", "old.jpg"⟩], []⟩ FsNode.missing
        (FsNode.dir [])).2 =
      Except.error (ScanErr.fileNotFound "RAW folder does not exist") ∧
    (scan_files ⟨[⟨"R", "old.cr2"⟩], [⟨"J", "old.jpg"⟩], []⟩ FsNode.missing
        (FsNode.dir [])).1.raw_files ≠ [⟨"R", "old.cr2"⟩] :=
  ⟨rfl, by decide⟩

/-- C8 (amended): when a supplied directory is missing, the scan fails with
`FileNotFoundError` before any directory enumeration, and the only mutation
is that both file lists are reset to empty (prior scan results are cleared);
the pair list and everything else are untouched. -/
theorem classifier_error_clears_lists (c : Core) (rawN jpgN : FsNode)
    (h : rawN = FsNode.missing ∨ jpgN = FsNode.missing) :
    (scan_files c rawN jpgN).1 = { c with raw_files := [], jpg_files := [] } ∧
    ∃ m, (scan_files c rawN jpgN).2 = Except.error (ScanErr.fileNotFound m) := by
  rcases h with rfl | rfl
  · exact ⟨rfl, "RAW folder does not exist", rfl⟩
  · cases rawN with
    | missing => exact ⟨rfl, "RAW folder does not exist", rfl⟩
    | plainFile => exact ⟨rfl, "JPG folder does not exist", rfl⟩
    | dir es => exact ⟨rfl, "JPG folder does not exist", rfl⟩

/-- C8 witness: a concrete engine state with a prior scan result, cleared by
an erroring re-scan. -/
theorem classifier_error_clears_lists_witness :
    (scan_files ⟨[⟨"R", "old.cr2"⟩], [], []⟩ FsNode.missing (FsNode.dir [])).1 =
      { raw_files := [], jpg_files := [], pairs := ([] : List (FPath × FPath × Nat)) } :=
  (classifier_error_clears_lists ⟨[⟨"R", "old.cr2"⟩], [], []⟩ FsNode.missing
    (FsNode.dir []) (Or.inl rfl)).1

lemma fsRename_at_new (old new : FPath) (fs : FS) :
    fsRename old new fs new = fs old := by
  simp [fsRename]

lemma fsRename_at_old (old new : FPath) (fs : FS) (h : old ≠ new) :
    fsRename old new fs old = none := by
  simp [fsRename, h]

lemma fsRename_ne (old new p : FPath) (fs : FS) (h1 : p ≠ new) (h2 : p ≠ old) :
    fsRename old new fs p = fs p := by
  simp [fsRename, h1, h2]

lemma tryRename_ok (envFail : Option String) (fs : FS) (old new : FPath) (fs' : FS)
    (h : tryRename envFail fs old new = .ok fs') :
    envFail = none ∧ (fs old).isSome ∧ fs' = fsRename old new fs := by
  cases envFail with
  | some m => exact absurd h (by simp [tryRename])
  | none =>
    by_cases hs : (fs old).isSome
    · refine ⟨rfl, hs, ?_⟩
      simp only [tryRename, if_pos hs] at h
      injection h with h
      exact h.symm
    · simp [tryRename, hs] at h

lemma execute_rename_aux_fs_untouched (envFail : Nat → Option String) :
    ∀ (plan : List (FPath × FPath)) (i : Nat) (fs : FS) (p : FPath),
      (∀ op ∈ plan, p ≠ op.1 ∧ p ≠ op.2) →
      (execute_rename_aux envFail i fs plan).1 p = fs p := by
  intro plan
  induction plan with
  | nil => intro i fs p _; rfl
  | cons op rest ih =>
    intro i fs p hp
    obtain ⟨old, new⟩ := op
    have hne := hp (old, new) (List.mem_cons_self _ _)
    have hrest : ∀ op ∈ rest, p ≠ op.1 ∧ p ≠ op.2 :=
      fun op h => hp op (List.mem_cons_of_mem _ h)
    simp only [execute_rename_aux]
    cases ht : tryRename (envFail i) fs old new with
    | ok fs' =>
      dsimp only
      rw [ih (i + 1) fs' p hrest]
      obtain ⟨_, _, rfl⟩ := tryRename_ok _ _ _ _ _ ht
      exact fsRename_ne _ _ _ _ hne.2 hne.1
    | error m =>
      dsimp only
      exact ih (i + 1) fs p hrest

lemma restore_backup_aux_untouched (rf : Nat → Option String) :
    ∀ (recs : List RenameRecord) (j : Nat) (fs : FS) (p : FPath),
      (∀ rcd ∈ recs, rcd.status = RStatus.success →
        p ≠ rcd.old_path ∧ p ≠ rcd.new_path) →
      (restore_backup_aux rf j fs recs).1 p = fs p := by
  intro recs
  induction recs with
  | nil => intro j fs p _; rfl
  | cons rcd rest ih =>
    intro j fs p hp
    have hrest : ∀ r ∈ rest, r.status = RStatus.success →
        p ≠ r.old_path ∧ p ≠ r.new_path :=
      fun r h => hp r (List.mem_cons_of_mem _ h)
    simp only [restore_backup_aux]
    by_cases hst : rcd.status = RStatus.success
    · rw [if_pos hst]
      obtain ⟨hpo, hpn⟩ := hp rcd (List.mem_cons_self _ _) hst
      by_cases hex : (fs rcd.new_path).isSome
      · rw [if_pos hex]
        cases ht : tryRename (rf j) fs rcd.new_path rcd.old_path with
        | ok fs' =>
          dsimp only
          rw [ih (j + 1) fs' p hrest]
          obtain ⟨_, _, rfl⟩ := tryRename_ok _ _ _ _ _ ht
          exact fsRename_ne _ _ _ _ hpo hpn
        | error m =>
          dsimp only
          exact ih (j + 1) fs p hrest
      · rw [if_neg hex]
        exact ih (j + 1) fs p hrest
    · rw [if_neg hst]
      exact ih (j + 1) fs p hrest

lemma restore_backup_aux_noop (rf : Nat → Option String) :
    ∀ (recs : List RenameRecord) (j : Nat) (fs : FS),
      (∀ rcd ∈ recs, rcd.status = RStatus.success → fs rcd.new_path = none) →
      restore_backup_aux rf j fs recs = (fs, 0, []) := by
  intro recs
  induction recs with
  | nil => intro j fs _; rfl
  | cons rcd rest ih =>
    intro j fs hp
    have hrest : ∀ r ∈ rest, r.status = RStatus.success → fs r.new_path = none :=
      fun r h => hp r (List.mem_cons_of_mem _ h)
    simp only [restore_backup_aux]
    by_cases hst : rcd.status = RStatus.success
    · rw [if_pos hst]
      have hnone : fs rcd.new_path = none := hp rcd (List.mem_cons_self _ _) hst
      rw [if_neg (by simp [hnone])]
      exact ih (j + 1) fs hrest
    · rw [if_neg hst]
      exact ih (j + 1) fs hrest

lemma rec_paths_mem (envFail : Nat → Option String) (plan : List (FPath × FPath))
    (i : Nat) (fs : FS) (rcd : RenameRecord)
    (h : rcd ∈ (execute_rename_aux envFail i fs plan).2.1) :
    rcd.old_path ∈ plan.map Prod.fst ∧ rcd.new_path ∈ plan.map Prod.snd := by
  have hm := execute_rename_aux_map envFail plan i fs
  have h1 : (rcd.old_path, rcd.new_path) ∈ plan := by
    rw [← hm]
    exact List.mem_map_of_mem _ h
  exact ⟨List.mem_map.mpr ⟨_, h1, rfl⟩, List.mem_map.mpr ⟨_, h1, rfl⟩⟩

lemma exec_restore_roundtrip (envFail : Nat → Option String) :
    ∀ (plan : List (FPath × FPath)) (i : Nat) (fs0 : FS) (j : Nat) (g : FS),
      (plan.map Prod.fst).Nodup →
      (plan.map Prod.snd).Nodup →
      (∀ op ∈ plan, op.2 ∉ plan.map Prod.fst) →
      (∀ p : FPath, (p ∈ plan.map Prod.fst ∨ p ∈ plan.map Prod.snd) →
        g p = (execute_rename_aux envFail i fs0 plan).1 p) →
      ∀ rcd ∈ (execute_rename_aux envFail i fs0 plan).2.1,
        rcd.status = RStatus.success →
          (restore_backup_aux (fun _ => none) j g
              (execute_rename_aux envFail i fs0 plan).2.1).1 rcd.old_path
            = fs0 rcd.old_path ∧
          (fs0 rcd.old_path).isSome = true ∧
          (restore_backup_aux (fun _ => none) j g
              (execute_rename_aux envFail i fs0 plan).2.1).1 rcd.new_path = none := by
  intro plan
  induction plan with
  | nil => intro i fs0 j g _ _ _ _ rcd h; cases h
  | cons op rest ih =>
    intro i fs0 j g hnds hndt hdisj hg rcd hrcd hst
    obtain ⟨src, tgt⟩ := op
    have hndsrc : src ∉ rest.map Prod.fst ∧ (rest.map Prod.fst).Nodup := by
      simpa using hnds
    have hndtgt : tgt ∉ rest.map Prod.snd ∧ (rest.map Prod.snd).Nodup := by
      simpa using hndt
    have hdhead : tgt ≠ src ∧ tgt ∉ rest.map Prod.fst := by
      have h0 := hdisj (src, tgt) (List.mem_cons_self _ _)
      simpa using h0
    have hdrest : ∀ op ∈ rest, op.2 ≠ src ∧ op.2 ∉ rest.map Prod.fst := by
      intro op hop
      have h0 := hdisj op (List.mem_cons_of_mem _ hop)
      simpa using h0
    have hdisj2 : ∀ op ∈ rest, op.2 ∉ rest.map Prod.fst :=
      fun op hop => (hdrest op hop).2
    cases ht : tryRename (envFail i) fs0 src tgt with
    | ok fs1 =>
      obtain ⟨henv, hsrcsome, hfs1⟩ := tryRename_ok _ _ _ _ _ ht
      have hexec : execute_rename_aux envFail i fs0 ((src, tgt) :: rest) =
          ((execute_rename_aux envFail (i + 1) fs1 rest).1,
           ({ old_name := src.name, new_name := tgt.name, old_path := src,
              new_path := tgt, status := RStatus.success, errMsg := none } :
              RenameRecord) ::
             (execute_rename_aux envFail (i + 1) fs1 rest).2.1,
           (execute_rename_aux envFail (i + 1) fs1 rest).2.2 + 1) := by
        simp only [execute_rename_aux, ht]
      rw [hexec] at hrcd hg ⊢
      dsimp only at hrcd hg ⊢
      have hg' : ∀ p : FPath, (p ∈ rest.map Prod.fst ∨ p ∈ rest.map Prod.snd) →
          g p = (execute_rename_aux envFail (i + 1) fs1 rest).1 p := by
        intro p hp
        refine hg p ?_
        rcases hp with h | h
        · exact Or.inl (by simp only [List.map_cons]; exact List.mem_cons_of_mem _ h)
        · exact Or.inr (by simp only [List.map_cons]; exact List.mem_cons_of_mem _ h)
      have hgtgt : g tgt = fs0 src := by
        have h1 : g tgt = (execute_rename_aux envFail (i + 1) fs1 rest).1 tgt :=
          hg tgt (Or.inr (by simp only [List.map_cons]; exact List.mem_cons_self _ _))
        have h2 : (execute_rename_aux envFail (i + 1) fs1 rest).1 tgt = fs1 tgt := by
          apply execute_rename_aux_fs_untouched
          intro op hop
          refine ⟨?_, ?_⟩
          · intro he
            exact hdhead.2 (by rw [he]; exact List.mem_map.mpr ⟨op, hop, rfl⟩)
          · intro he
            exact hndtgt.1 (by rw [he]; exact List.mem_map.mpr ⟨op, hop, rfl⟩)
        rw [h1, h2, hfs1, fsRename_at_new]
      have hgtsome : (g tgt).isSome = true := by rw [hgtgt]; exact hsrcsome
      have hrestore : restore_backup_aux (fun _ => none) j g
          (({ old_name := src.name, new_name := tgt.name, old_path := src,
              new_path := tgt, status := RStatus.success, errMsg := none } :
              RenameRecord) ::
            (execute_rename_aux envFail (i + 1) fs1 rest).2.1) =
          ((restore_backup_aux (fun _ => none) (j + 1) (fsRename tgt src g)
              (execute_rename_aux envFail (i + 1) fs1 rest).2.1).1,
           (restore_backup_aux (fun _ => none) (j + 1) (fsRename tgt src g)
              (execute_rename_aux envFail (i + 1) fs1 rest).2.1).2.1 + 1,
           (restore_backup_aux (fun _ => none) (j + 1) (fsRename tgt src g)
              (execute_rename_aux envFail (i + 1) fs1 rest).2.1).2.2) := by
        simp only [restore_backup_aux]
        rw [if_pos trivial, if_pos hgtsome]
        have htr : tryRename none g tgt src = Except.ok (fsRename tgt src g) := by
          simp [tryRename, hgtsome]
        rw [htr]
      rw [hrestore]
      dsimp only
      rcases List.mem_cons.mp hrcd with hR | hR
      · subst hR
        dsimp only at hst ⊢
        have huntouched1 : (restore_backup_aux (fun _ => none) (j + 1)
            (fsRename tgt src g)
            (execute_rename_aux envFail (i + 1) fs1 rest).2.1).1 src
            = fsRename tgt src g src := by
          apply restore_backup_aux_untouched
          intro r hr hrs
          obtain ⟨ho, hn⟩ := rec_paths_mem envFail rest (i + 1) fs1 r hr
          refine ⟨?_, ?_⟩
          · intro he
            exact hndsrc.1 (by rw [he]; exact ho)
          · intro he
            obtain ⟨op, hop, heq⟩ := List.mem_map.mp hn
            exact (hdrest op hop).1 (heq.trans he.symm)
        have huntouched2 : (restore_backup_aux (fun _ => none) (j + 1)
            (fsRename tgt src g)
            (execute_rename_aux envFail (i + 1) fs1 rest).2.1).1 tgt
            = fsRename tgt src g tgt := by
          apply restore_backup_aux_untouched
          intro r hr hrs
          obtain ⟨ho, hn⟩ := rec_paths_mem envFail rest (i + 1) fs1 r hr
          refine ⟨?_, ?_⟩
          · intro he
            exact hdhead.2 (by rw [he]; exact ho)
          · intro he
            exact hndtgt.1 (by rw [he]; exact hn)
        refine ⟨?_, hsrcsome, ?_⟩
        · rw [huntouched1, fsRename_at_new, hgtgt]
        · rw [huntouched2, fsRename_at_old tgt src g hdhead.1]
      · have hg2 : ∀ p : FPath, (p ∈ rest.map Prod.fst ∨ p ∈ rest.map Prod.snd) →
            fsRename tgt src g p = (execute_rename_aux envFail (i + 1) fs1 rest).1 p := by
          intro p hp
          have hps : p ≠ src := by
            rcases hp with h | h
            · intro he
              exact hndsrc.1 (by rw [← he]; exact h)
            · intro he
              obtain ⟨op, hop, heq⟩ := List.mem_map.mp h
              exact (hdrest op hop).1 (heq.trans he)
          have hpt : p ≠ tgt := by
            rcases hp with h | h
            · intro he
              exact hdhead.2 (by rw [← he]; exact h)
            · intro he
              exact hndtgt.1 (by rw [← he]; exact h)
          rw [fsRename_ne tgt src p g hps hpt]
          exact hg' p hp
        have hmain := ih (i + 1) fs1 (j + 1) (fsRename tgt src g)
          hndsrc.2 hndtgt.2 hdisj2 hg2 rcd hR hst
        obtain ⟨ho, hn⟩ := rec_paths_mem envFail rest (i + 1) fs1 rcd hR
        have h1 : rcd.old_path ≠ tgt := by
          intro he
          exact hdhead.2 (by rw [← he]; exact ho)
        have h2 : rcd.old_path ≠ src := by
          intro he
          exact hndsrc.1 (by rw [← he]; exact ho)
        have hconv : fs1 rcd.old_path = fs0 rcd.old_path := by
          rw [hfs1]
          exact fsRename_ne src tgt _ fs0 h1 h2
        exact ⟨hmain.1.trans hconv, hconv ▸ hmain.2.1, hmain.2.2⟩
    | error m =>
      have hexec : execute_rename_aux envFail i fs0 ((src, tgt) :: rest) =
          ((execute_rename_aux envFail (i + 1) fs0 rest).1,
           ({ old_name := src.name, new_name := tgt.name, old_path := src,
              new_path := tgt, status := RStatus.error, errMsg := some m } :
              RenameRecord) ::
             (execute_rename_aux envFail (i + 1) fs0 rest).2.1,
           (execute_rename_aux envFail (i + 1) fs0 rest).2.2) := by
        simp only [execute_rename_aux, ht]
      rw [hexec] at hrcd hg ⊢
      dsimp only at hrcd hg ⊢
      have hrestore : restore_backup_aux (fun _ => none) j g
          (({ old_name := src.name, new_name := tgt.name, old_path := src,
              new_path := tgt, status := RStatus.error, errMsg := some m } :
              RenameRecord) ::
            (execute_rename_aux envFail (i + 1) fs0 rest).2.1) =
          restore_backup_aux (fun _ => none) (j + 1) g
            (execute_rename_aux envFail (i + 1) fs0 rest).2.1 := by
        simp [restore_backup_aux]
      rw [hrestore]
      rcases List.mem_cons.mp hrcd with hR | hR
      · rw [hR] at hst
        exact absurd hst (by simp)
      · have hg' : ∀ p : FPath, (p ∈ rest.map Prod.fst ∨ p ∈ rest.map Prod.snd) →
            g p = (execute_rename_aux envFail (i + 1) fs0 rest).1 p := by
          intro p hp
          refine hg p ?_
          rcases hp with h | h
          · exact Or.inl (by simp only [List.map_cons]; exact List.mem_cons_of_mem _ h)
          · exact Or.inr (by simp only [List.map_cons]; exact List.mem_cons_of_mem _ h)
        exact ih (i + 1) fs0 (j + 1) g hndsrc.2 hndtgt.2 hdisj2 hg' rcd hR hst

/-- C2 counterexample: two planned operations may share a target (the
planner does not cross-check targets within one plan).  Executing
`[(a.cr2 → x.cr2), (b.cr2 → x.cr2)]` records both operations as `success`,
but restoring moves the single file at `x.cr2` back to `a.cr2` only:
`b.cr2` is not returned to its original state, refuting the claim for
arbitrary executed plans. -/
theorem roundtrip_cex :
    ((execute_rename (fun _ => none)
        (fun p => if p = ⟨"D", "a.cr2"⟩ then some 1 else
          if p = ⟨"D", "b.cr2"⟩ then some 2 else none)
        [(⟨"D", "a.cr2"⟩, ⟨"D", "x.cr2"⟩),
         (⟨"D", "b.cr2"⟩, ⟨"D", "x.cr2"⟩)]).2.1.map RenameRecord.status =
      [RStatus.success, RStatus.success]) ∧
    (restore_backup (fun _ => none)
        (execute_rename (fun _ => none)
          (fun p => if p = ⟨"D", "a.cr2"⟩ then some 1 else
            if p = ⟨"D", "b.cr2"⟩ then some 2 else none)
          [(⟨"D", "a.cr2"⟩, ⟨"D", "x.cr2"⟩),
           (⟨"D", "b.cr2"⟩, ⟨"D", "x.cr2"⟩)]).1
        (execute_rename (fun _ => none)
          (fun p => if p = ⟨"D", "a.cr2"⟩ then some 1 else
            if p = ⟨"D", "b.cr2"⟩ then some 2 else none)
          [(⟨"D", "a.cr2"⟩, ⟨"D", "x.cr2"⟩),
           (⟨"D", "b.cr2"⟩, ⟨"D", "x.cr2"⟩)]).2.1).1 ⟨"D", "b.cr2"⟩ = none ∧
    (if (⟨"D", "b.cr2"⟩ : FPath) = ⟨"D", "a.cr2"⟩ then some 1 else
      if (⟨"D", "b.cr2"⟩ : FPath) = ⟨"D", "b.cr2"⟩ then some 2 else none) = some 2 := by
  refine ⟨by decide, by decide, by decide⟩

/-- C2 (amended): for an executed plan whose source paths are pairwise
distinct, whose target paths are pairwise distinct, and in which no target
is also a source, restoring from the resulting log with no restore failures
returns every successfully renamed file to its original path, and the
restore touches no path outside the success records (in particular records
with status `error` are never acted on). -/
theorem roundtrip_restores_success (envFail : Nat → Option String) (fs0 : FS)
    (plan : List (FPath × FPath))
    (hs : (plan.map Prod.fst).Nodup) (htg : (plan.map Prod.snd).Nodup)
    (hd : ∀ op ∈ plan, op.2 ∉ plan.map Prod.fst) :
    (∀ rcd ∈ (execute_rename envFail fs0 plan).2.1, rcd.status = RStatus.success →
      (restore_backup (fun _ => none) (execute_rename envFail fs0 plan).1
          (execute_rename envFail fs0 plan).2.1).1 rcd.old_path = fs0 rcd.old_path ∧
      (fs0 rcd.old_path).isSome = true) ∧
    (∀ p : FPath,
      (∀ rcd ∈ (execute_rename envFail fs0 plan).2.1, rcd.status = RStatus.success →
        p ≠ rcd.old_path ∧ p ≠ rcd.new_path) →
      (restore_backup (fun _ => none) (execute_rename envFail fs0 plan).1
          (execute_rename envFail fs0 plan).2.1).1 p
        = (execute_rename envFail fs0 plan).1 p) := by
  constructor
  · intro rcd h hstatus
    have hmain := exec_restore_roundtrip envFail plan 0 fs0 0
      (execute_rename envFail fs0 plan).1 hs htg hd (fun p _ => rfl) rcd h hstatus
    exact ⟨hmain.1, hmain.2.1⟩
  · intro p hp
    exact restore_backup_aux_untouched _ _ 0 _ p hp

/-- C2 witness: a one-operation plan executed and restored; the file is back
at its original path. -/
theorem roundtrip_restores_success_witness :
    (restore_backup (fun _ => none)
        (execute_rename (fun _ => none)
          (fun p => if p = ⟨"D", "a.cr2"⟩ then some 1 else none)
          [(⟨"D", "a.cr2"⟩, ⟨"D", "x.cr2"⟩)]).1
        (execute_rename (fun _ => none)
          (fun p => if p = ⟨"D", "a.cr2"⟩ then some 1 else none)
          [(⟨"D", "a.cr2"⟩, ⟨"D", "x.cr2"⟩)]).2.1).1 ⟨"D", "a.cr2"⟩ =
      (fun p : FPath => if p = ⟨"D", "a.cr2"⟩ then some 1 else none) ⟨"D", "a.cr2"⟩ :=
  ((roundtrip_restores_success (fun _ => none)
      (fun p => if p = ⟨"D", "a.cr2"⟩ then some 1 else none)
      [(⟨"D", "a.cr2"⟩, ⟨"D", "x.cr2"⟩)] (by decide) (by decide) (by decide)).1
    { old_name := "a.cr2", new_name := "x.cr2", old_path := ⟨"D", "a.cr2"⟩,
      new_path := ⟨"D", "x.cr2"⟩, status := RStatus.success, errMsg := none }
    (by decide) rfl).1

/-- C6: after executing a non-interfering plan and restoring once with no
restore failures, a second restore from the same log is a no-op: every
already-reverted entry fails the target-existence check and is skipped, so
the filesystem is unchanged, zero files are restored and no errors are
collected. -/
theorem restore_idempotent (envFail : Nat → Option String) (fs0 : FS)
    (plan : List (FPath × FPath)) (rf2 : Nat → Option String)
    (hs : (plan.map Prod.fst).Nodup) (htg : (plan.map Prod.snd).Nodup)
    (hd : ∀ op ∈ plan, op.2 ∉ plan.map Prod.fst) :
    restore_backup rf2
        (restore_backup (fun _ => none) (execute_rename envFail fs0 plan).1
          (execute_rename envFail fs0 plan).2.1).1
        (execute_rename envFail fs0 plan).2.1 =
      ((restore_backup (fun _ => none) (execute_rename envFail fs0 plan).1
          (execute_rename envFail fs0 plan).2.1).1, 0, []) := by
  apply restore_backup_aux_noop
  intro rcd h hstatus
  exact (exec_restore_roundtrip envFail plan 0 fs0 0
    (execute_rename envFail fs0 plan).1 hs htg hd (fun p _ => rfl) rcd h hstatus).2.2

/-- C6 witness: the second restore pass on a concrete one-operation log
changes nothing. -/
theorem restore_idempotent_witness :
    restore_backup (fun _ => none)
        (restore_backup (fun _ => none)
          (execute_rename (fun _ => none)
            (fun p => if p = ⟨"D", "a.cr2"⟩ then some 1 else none)
            [(⟨"D", "a.cr2"⟩, ⟨"D", "x.cr2"⟩)]).1
          (execute_rename (fun _ => none)
            (fun p => if p = ⟨"D", "a.cr2"⟩ then some 1 else none)
            [(⟨"D", "a.cr2"⟩, ⟨"D", "x.cr2"⟩)]).2.1).1
        (execute_rename (fun _ => none)
          (fun p => if p = ⟨"D", "a.cr2"⟩ then some 1 else none)
          [(⟨"D", "a.cr2"⟩, ⟨"D", "x.cr2"⟩)]).2.1 =
      ((restore_backup (fun _ => none)
          (execute_rename (fun _ => none)
            (fun p => if p = ⟨"D", "a.cr2"⟩ then some 1 else none)
            [(⟨"D", "a.cr2"⟩, ⟨"D", "x.cr2"⟩)]).1
          (execute_rename (fun _ => none)
            (fun p => if p = ⟨"D", "a.cr2"⟩ then some 1 else none)
            [(⟨"D", "a.cr2"⟩, ⟨"D", "x.cr2"⟩)]).2.1).1, 0, []) :=
  restore_idempotent (fun _ => none)
    (fun p => if p = ⟨"D", "a.cr2"⟩ then some 1 else none)
    [(⟨"D", "a.cr2"⟩, ⟨"D", "x.cr2"⟩)] (fun _ => none)
    (by decide) (by decide) (by decide)
